import Mathlib

/-!
Verification development for `git_helm_secrets.py`, a directory walker that
encrypts Helm values files with an external tool.

Strings (paths, file names, file contents, subprocess output) are modelled as
`List Char`.  The filesystem is a finite tree of named entries.  The walk
`encrypt_values` and the per-file action `encrypt_file` are embedded as pure
state-passing functions over a `RunState` carrying the shared counter
`self.encrypted_files` and the ordered trace of file writes performed with
`open(dest, 'wb')`.  The external tool invocation
`sops --encrypt --age <key> <path>` is abstracted as an oracle from the file
path to the captured stdout, the exit status and the stderr text; the source
reads only the stdout field.

Modelling notes, matching the Python source:
  - `os.path.join(p, child)` is embedded as `p ++ '/' :: child`, the behaviour
    for a root that does not itself end in a slash;
  - the walk tests its three name conditions on the full joined path string,
    exactly as `path.endswith('.yaml')`, `'values.' in path` and
    `path.endswith('values.enc.yaml')` do;
  - `str.replace('.yaml', '.enc.yaml')` replaces every non-overlapping
    occurrence, scanning left to right, which `repAll` mirrors;
  - `os.listdir` order is the order of the children list of a `dir` node, and
    the walk sees the directory tree as it was when the run started, with the
    writes accumulated as a trace (a fresh output file is not in any earlier
    `os.listdir` snapshot, so a single run never revisits its own writes).
-/

abbrev Str := List Char

def str (s : String) : Str := s.data

/-- The literal `'.yaml'` of `encrypt_values` (line 69) and `encrypt_file` (line 50). -/
def yamlPat : Str := str ".yaml"

/-- The literal `'.enc.yaml'` of `encrypt_file` (line 50). -/
def encPat : Str := str ".enc.yaml"

/-- The literal `'values.'` of `encrypt_values` (line 69). -/
def valuesPat : Str := str "values."

/-- The literal `'values.enc.yaml'` of `encrypt_values` (line 69). -/
def vencPat : Str := str "values.enc.yaml"

/-- Bool version of `s.startswith(pat)`; the building block for the other two tests. -/
def isPref : Str → Str → Bool
  | [], _ => true
  | _ :: _, [] => false
  | a :: as, b :: bs => a == b && isPref as bs

/-- Python `pat in s`: some position of `s` starts with `pat`. -/
def isSub (pat : Str) : Str → Bool
  | [] => isPref pat []
  | a :: t => isPref pat (a :: t) || isSub pat t

/-- Python `s.endswith(pat)`: `s` equals `pat` or the tail of `s` ends with it. -/
def isSuf (pat : Str) : Str → Bool
  | [] => pat == []
  | a :: t => pat == (a :: t) || isSuf pat t

/-- Python `s.replace('.yaml', '.enc.yaml')` (line 50): scan left to right,
replace each non-overlapping occurrence of `.yaml` by `.enc.yaml`. -/
def repAll : Str → Str
  | '.' :: 'y' :: 'a' :: 'm' :: 'l' :: t => encPat ++ repAll t
  | a :: t => a :: repAll t
  | [] => []

/-- The file test of line 69 on the full path string:
`path.endswith('.yaml') and 'values.' in path and not path.endswith('values.enc.yaml')`.
The `os.path.isfile(path)` conjunct is captured by the walk applying this test
only at `file` nodes. -/
def selects (p : Str) : Bool :=
  isSuf yamlPat p && isSub valuesPat p && ! isSuf vencPat p

/-- Captured result of the `sops` subprocess: the stdout bytes read by
`process.communicate()`, the exit status, and the stderr text.  The source
uses only `out`. -/
structure ToolOut where
  out : Str
  status : Int
  err : Str

/-- Abstraction of one `sops --encrypt --age <key> <path>` invocation, keyed by
the path argument (the key is fixed for a run). -/
abbrev Oracle := Str → ToolOut

/-- Mutable state of a `ValuesEncryptor`: the counter `self.encrypted_files`
plus the ordered trace of `(destination path, bytes)` writes performed. -/
structure RunState where
  count : Nat
  writes : List (Str × Str)

/-- `encrypt_file` (lines 39-53): derive the destination by
`file_path.replace('.yaml', '.enc.yaml')`, write the captured stdout there
unconditionally, and increment `self.encrypted_files`. -/
def encryptFile (enc : Oracle) (p : Str) (s : RunState) : RunState :=
  ⟨s.count + 1, s.writes ++ [(repAll p, (enc p).out)]⟩

mutual
inductive Entry where
  | file (content : Str)
  | dir (children : EList)
inductive EList where
  | nil
  | cons (name : Str) (entry : Entry) (rest : EList)
end

mutual
/-- `encrypt_values` (lines 55-75) at a path whose entry is `t`: at a regular
file apply the line-69 test and possibly `encrypt_file`; at a directory
recurse over the `os.listdir` children in order.  The returned `RunState`
carries the value of `self.encrypted_files` that the method returns. -/
def encryptValues (enc : Oracle) : Str → Entry → RunState → RunState
  | p, .file _, s => if selects p then encryptFile enc p s else s
  | p, .dir cs, s => encryptChildren enc p cs s
termination_by structural _ t _ => t
/-- The `for child in os.listdir(path)` loop of `encrypt_values` (lines 72-73). -/
def encryptChildren (enc : Oracle) : Str → EList → RunState → RunState
  | _, .nil, s => s
  | p, .cons n e rest, s => encryptChildren enc p rest (encryptValues enc (p ++ '/' :: n) e s)
termination_by structural _ cs _ => cs
end

theorem encryptValues_file (enc : Oracle) (p : Str) (c : Str) (s : RunState) :
    encryptValues enc p (.file c) s = if selects p then encryptFile enc p s else s := rfl

theorem encryptValues_dir (enc : Oracle) (p : Str) (cs : EList) (s : RunState) :
    encryptValues enc p (.dir cs) s = encryptChildren enc p cs s := rfl

theorem encryptChildren_nil (enc : Oracle) (p : Str) (s : RunState) :
    encryptChildren enc p .nil s = s := rfl

theorem encryptChildren_cons (enc : Oracle) (p n : Str) (e : Entry) (rest : EList)
    (s : RunState) :
    encryptChildren enc p (.cons n e rest) s =
      encryptChildren enc p rest (encryptValues enc (p ++ '/' :: n) e s) := rfl

mutual
/-- The paths at which the walk starting from `(p, t)` calls `encrypt_file`,
in visiting order. -/
def selPaths : Str → Entry → List Str
  | p, .file _ => if selects p then [p] else []
  | p, .dir cs => selChildren p cs
termination_by structural _ t => t
def selChildren : Str → EList → List Str
  | _, .nil => []
  | p, .cons n e rest => selPaths (p ++ '/' :: n) e ++ selChildren p rest
termination_by structural _ cs => cs
end

theorem selPaths_file (p : Str) (c : Str) :
    selPaths p (.file c) = if selects p then [p] else [] := rfl

theorem selPaths_dir (p : Str) (cs : EList) : selPaths p (.dir cs) = selChildren p cs := rfl

theorem selChildren_nil (p : Str) : selChildren p .nil = [] := rfl

theorem selChildren_cons (p n : Str) (e : Entry) (rest : EList) :
    selChildren p (.cons n e rest) =
      selPaths (p ++ '/' :: n) e ++ selChildren p rest := rfl

mutual
/-- All regular-file paths of the tree rooted at `(p, t)`, in visiting order. -/
def filePaths : Str → Entry → List Str
  | p, .file _ => [p]
  | p, .dir cs => fileChildren p cs
termination_by structural _ t => t
def fileChildren : Str → EList → List Str
  | _, .nil => []
  | p, .cons n e rest => filePaths (p ++ '/' :: n) e ++ fileChildren p rest
termination_by structural _ cs => cs
end

theorem filePaths_file (p : Str) (c : Str) : filePaths p (.file c) = [p] := rfl

theorem filePaths_dir (p : Str) (cs : EList) : filePaths p (.dir cs) = fileChildren p cs := rfl

theorem fileChildren_nil (p : Str) : fileChildren p .nil = [] := rfl

theorem fileChildren_cons (p n : Str) (e : Entry) (rest : EList) :
    fileChildren p (.cons n e rest) =
      filePaths (p ++ '/' :: n) e ++ fileChildren p rest := rfl

/-- The destination paths written by a run of the walk started with a fresh
encryptor (counter 0, no writes yet). -/
def runDests (enc : Oracle) (root : Str) (t : Entry) : List Str :=
  (encryptValues enc root t ⟨0, []⟩).writes.map Prod.fst

/-- `argparse` key resolution of line 87: the `--age-key` value if the flag was
given, else the value of the `AGE_KEY` environment variable (`none` if unset). -/
def resolveKey (flag envKey : Option Str) : Option Str :=
  match flag with
  | some k => some k
  | none => envKey

/-- Observable outcome of `main` (lines 77-98): process exit code, the write
trace, the count printed in the completion message (`none` when no completion
message is printed), and whether the key-error message was printed. -/
structure MainResult where
  exitCode : Nat
  writes : List (Str × Str)
  summary : Option Nat
  errPrinted : Bool

/-- `main` (lines 77-98): `fs = some cs` means the root path is a directory
with children `cs`; `fs = none` means `os.path.isdir` is false (missing path,
or a non-directory).  `if not args.age_key` treats both a missing key and an
empty-string key as absent (Python falsiness); on the no-directory branch the
function falls through and the process ends with exit code 0. -/
def mainRun (enc : Oracle) (flag envKey : Option Str) (root : Str)
    (fs : Option EList) : MainResult :=
  match resolveKey flag envKey with
  | none => ⟨1, [], none, true⟩
  | some k =>
    if k.isEmpty then ⟨1, [], none, true⟩
    else
      match fs with
      | some cs =>
        let st := encryptValues enc root (.dir cs) ⟨0, []⟩
        ⟨0, st.writes, some st.count, false⟩
      | none => ⟨0, [], none, false⟩

/-- Lookup of a directory child by name, first match (`os.listdir` semantics). -/
def lookupC : EList → Str → Option Entry
  | .nil, _ => none
  | .cons m e rest, n => if m = n then some e else lookupC rest n

/-- Create or truncate-and-replace the file named `n` with content `c`. -/
def setFileC : EList → Str → Str → EList
  | .nil, n, c => .cons n (.file c) .nil
  | .cons m e rest, n, c =>
    if m = n then .cons m (.file c) rest else .cons m e (setFileC rest n c)

/-- Replace the child named `n` by the entry `e'`. -/
def replaceC : EList → Str → Entry → EList
  | .nil, _, _ => .nil
  | .cons m e rest, n, e' =>
    if m = n then .cons m e' rest else .cons m e (replaceC rest n e')

/-- Content of the regular file at the component path, if any. -/
def lookupPath : Entry → List Str → Option Str
  | .file c, [] => some c
  | .dir _, [] => none
  | .file _, _ :: _ => none
  | .dir cs, n :: rest =>
    match lookupC cs n with
    | some e => lookupPath e rest
    | none => none

/-- Effect of `open(dest, 'wb'); f.write(c)` at the component path: every
intermediate component must be an existing directory, and the final component
must not be a directory; an existing file is truncated and overwritten, a
missing one is created.  `none` models the raised `OSError`. -/
def writePath : Entry → List Str → Str → Option Entry
  | _, [], _ => none
  | .file _, _ :: _, _ => none
  | .dir cs, [n], c =>
    match lookupC cs n with
    | some (.dir _) => none
    | _ => some (.dir (setFileC cs n c))
  | .dir cs, n :: m :: rest, c =>
    match lookupC cs n with
    | some e =>
      match writePath e (m :: rest) c with
      | some e' => some (.dir (replaceC cs n e'))
      | none => none
    | none => none

/-- Split a path string on `'/'` into its components. -/
def splitPath : Str → List Str
  | [] => [[]]
  | a :: t =>
    if a = '/' then [] :: splitPath t
    else
      match splitPath t with
      | [] => [[a]]
      | h :: r => (a :: h) :: r

/-- Join components with `'/'`; left inverse of `splitPath`. -/
def joinPath : List Str → Str
  | [] => []
  | [x] => x
  | x :: xs => x ++ '/' :: joinPath xs

/-- Remove a leading prefix, or fail. -/
def dropPre : Str → Str → Option Str
  | [], s => some s
  | _ :: _, [] => none
  | a :: as, b :: bs => if a = b then dropPre as bs else none

/-- Apply the write trace of a run to the tree rooted at `root`: each absolute
destination is relativised against `root ++ "/"`, split into components, and
written.  `none` models a raised `OSError` anywhere in the sequence. -/
def applyWrites (root : Str) : Entry → List (Str × Str) → Option Entry
  | t, [] => some t
  | t, (d, c) :: rest =>
    match dropPre (root ++ ['/']) d with
    | some rel =>
      match writePath t (splitPath rel) c with
      | some t' => applyWrites root t' rest
      | none => none
    | none => none

/-- Last component of a path string. -/
def baseName (p : Str) : Str := (splitPath p).reverse.headD []

/-- Modelled from the spec (§4.1, claims C1/C2/C8): the match condition read
on the file NAME — name ends with `.yaml`, name contains `values.`, name does
not end with `values.enc.yaml`. -/
def nameMatch (n : Str) : Bool :=
  isSuf yamlPat n && isSub valuesPat n && ! isSuf vencPat n

/-- Modelled from the spec (§4.3, claim C3): replace only the FIRST occurrence
of `.yaml` by `.enc.yaml`, leaving the rest of the string unchanged. -/
def replaceFirst : Str → Str
  | '.' :: 'y' :: 'a' :: 'm' :: 'l' :: t => encPat ++ t
  | a :: t => a :: replaceFirst t
  | [] => []

mutual
/-- Modelled from the spec (§8 and claim C1): the claimed output set — for
every regular file under the root whose NAME matches the pattern, the sibling
obtained by replacing the name's final `.yaml` with `.enc.yaml`. -/
def specEntry : Str → Str → Entry → List Str
  | d, n, .file _ =>
    if nameMatch n then [d ++ '/' :: (n.take (n.length - 5) ++ encPat)] else []
  | d, n, .dir cs => specList (d ++ '/' :: n) cs
termination_by structural _ _ e => e
def specList : Str → EList → List Str
  | _, .nil => []
  | d, .cons n e rest => specEntry d n e ++ specList d rest
termination_by structural _ cs => cs
end

/-- Oracle of a deterministic external tool that succeeds with output `"E"`. -/
def constEnc : Oracle := fun _ => ⟨str "E", 0, []⟩

/-- The same tool output with a different exit status and stderr text. -/
def constEnc2 : Oracle := fun _ => ⟨str "E", 1, str "warning"⟩

/-- Oracle of a failing tool: empty stdout, non-zero status, an error on stderr. -/
def emptyEnc : Oracle := fun _ => ⟨[], 1, str "age key not valid"⟩

/-! Basic characterisations of the three string tests. -/

theorem isPref_iff (p s : Str) : isPref p s = true ↔ ∃ t, s = p ++ t := by
  induction p generalizing s with
  | nil => simp [isPref]
  | cons a as ih =>
    cases s with
    | nil => simp [isPref]
    | cons b bs =>
      simp only [isPref, Bool.and_eq_true, beq_iff_eq, ih, List.cons_append,
        List.cons.injEq]
      constructor
      · rintro ⟨rfl, t, rfl⟩; exact ⟨t, rfl, rfl⟩
      · rintro ⟨t, rfl, rfl⟩; exact ⟨rfl, t, rfl⟩

theorem isSuf_iff (pat s : Str) : isSuf pat s = true ↔ ∃ u, s = u ++ pat := by
  induction s with
  | nil =>
    simp only [isSuf, beq_iff_eq]
    constructor
    · rintro rfl; exact ⟨[], rfl⟩
    · rintro ⟨u, hu⟩
      exact (List.append_eq_nil.mp hu.symm).2
  | cons a t ih =>
    simp only [isSuf, Bool.or_eq_true, beq_iff_eq, ih]
    constructor
    · rintro (rfl | ⟨u, rfl⟩)
      · exact ⟨[], rfl⟩
      · exact ⟨a :: u, rfl⟩
    · rintro ⟨u, hu⟩
      cases u with
      | nil => exact Or.inl hu.symm
      | cons x xs =>
        rw [List.cons_append] at hu
        cases hu
        exact Or.inr ⟨xs, rfl⟩

theorem isSub_iff (pat s : Str) : isSub pat s = true ↔ ∃ u v, s = u ++ pat ++ v := by
  induction s with
  | nil =>
    cases pat with
    | nil => simp [isSub, isPref]
    | cons p ps => simp [isSub, isPref]
  | cons a t ih =>
    simp only [isSub, Bool.or_eq_true, isPref_iff, ih]
    constructor
    · rintro (⟨v, hv⟩ | ⟨u, v, rfl⟩)
      · exact ⟨[], v, by simpa using hv⟩
      · exact ⟨a :: u, v, rfl⟩
    · rintro ⟨u, v, hu⟩
      cases u with
      | nil => exact Or.inl ⟨v, by simpa using hu⟩
      | cons x xs =>
        rw [List.cons_append] at hu
        cases hu
        exact Or.inr ⟨xs, v, rfl⟩

theorem isSub_of_pref (pat s : Str) (h : isPref pat s = true) : isSub pat s = true := by
  cases s with
  | nil =>
    simp only [isSub]
    exact h
  | cons a t => simp [isSub, h]

/-! Behaviour of the destination substitution `repAll`. -/

theorem repAll_pat (t : Str) : repAll (yamlPat ++ t) = encPat ++ repAll t := rfl

theorem repAll_ne (a : Char) (t : Str) (h : isPref yamlPat (a :: t) = false) :
    repAll (a :: t) = a :: repAll t := by
  rw [repAll.eq_def]
  split
  · rename_i t' heq
    rw [show a :: t = '.' :: 'y' :: 'a' :: 'm' :: 'l' :: t' from heq] at h
    simp [isPref, yamlPat, str] at h
  · rename_i a' t' heq
    cases heq
    rfl
  · rename_i heq
    cases heq

theorem pref_append_pat (u : Str) (h : isPref yamlPat (u ++ yamlPat) = true) :
    u = [] ∨ ∃ w, u = yamlPat ++ w := by
  obtain ⟨t, ht⟩ := (isPref_iff _ _).1 h
  rcases Nat.lt_or_ge u.length 5 with hk | hk
  · cases hu : u with
    | nil => exact Or.inl rfl
    | cons a us =>
      exfalso
      have hpos : 0 < u.length := by rw [hu]; simp
      have h1 : u = yamlPat.take u.length := by
        have e1 : (u ++ yamlPat).take u.length = u := by
          rw [List.take_append_of_le_length (le_refl _), List.take_length]
        have e2 : (yamlPat ++ t).take u.length = yamlPat.take u.length := by
          rw [List.take_append_of_le_length (show u.length ≤ yamlPat.length from le_of_lt hk)]
        rw [ht, e2] at e1
        exact e1.symm
      have h2 : yamlPat = yamlPat.drop u.length ++ t := by
        have e3 : yamlPat.take u.length ++ yamlPat =
            yamlPat.take u.length ++ (yamlPat.drop u.length ++ t) := by
          conv_lhs => rw [← h1]
          rw [← List.append_assoc, List.take_append_drop]
          exact ht
        exact List.append_cancel_left e3
      have h3 : isPref (yamlPat.drop u.length) yamlPat = true :=
        (isPref_iff _ _).2 ⟨t, h2⟩
      have hno : ∀ j : Fin 5, 0 < j.val → isPref (yamlPat.drop j.val) yamlPat = false := by
        decide
      simp [hno ⟨u.length, hk⟩ hpos] at h3
  · right
    have h5 : u.take 5 = yamlPat := by
      have e2 : (yamlPat ++ t).take 5 = yamlPat := by
        rw [show (5 : Nat) = yamlPat.length from rfl, List.take_left]
      rw [← ht, List.take_append_of_le_length hk] at e2
      exact e2
    exact ⟨u.drop 5, by rw [← h5]; exact (List.take_append_drop 5 u).symm⟩

theorem repAll_len_ge (s : Str) : s.length ≤ (repAll s).length := by
  by_cases h : isPref yamlPat s = true
  · obtain ⟨t, hs⟩ := (isPref_iff _ _).1 h
    rw [hs, repAll_pat]
    have ih := repAll_len_ge t
    simp only [List.length_append]
    have h9 : encPat.length = 9 := rfl
    have h5 : yamlPat.length = 5 := rfl
    omega
  · cases s with
    | nil => simp [repAll]
    | cons a t =>
      rw [repAll_ne a t (by simpa using h)]
      have ih := repAll_len_ge t
      simp only [List.length_cons]
      omega
termination_by s.length
decreasing_by
  all_goals (simp_all [yamlPat, str]; try omega)

theorem repAll_len_gain (s : Str) (h : isSub yamlPat s = true) :
    s.length + 4 ≤ (repAll s).length := by
  by_cases hp : isPref yamlPat s = true
  · obtain ⟨t, rfl⟩ := (isPref_iff _ _).1 hp
    rw [repAll_pat]
    have ih := repAll_len_ge t
    simp only [List.length_append]
    have h9 : encPat.length = 9 := rfl
    have h5 : yamlPat.length = 5 := rfl
    omega
  · cases s with
    | nil => simp [isSub, isPref, yamlPat, str] at h
    | cons a t =>
      rw [repAll_ne a t (by simpa using hp)]
      have hsub : isSub yamlPat t = true := by
        simp only [isSub, Bool.or_eq_true] at h
        rcases h with h1 | h2
        · exact absurd h1 hp
        · exact h2
      have ih := repAll_len_gain t hsub
      simp only [List.length_cons]
      omega
termination_by s.length

theorem repAll_suf (u : Str) : ∃ v, repAll (u ++ yamlPat) = v ++ encPat := by
  by_cases h : isPref yamlPat (u ++ yamlPat) = true
  · rcases pref_append_pat u h with rfl | ⟨w, hw⟩
    · exact ⟨[], by simp [repAll_pat, repAll]⟩
    · rw [hw, List.append_assoc, repAll_pat]
      obtain ⟨v, hv⟩ := repAll_suf w
      exact ⟨encPat ++ v, by rw [hv, List.append_assoc]⟩
  · cases u with
    | nil =>
      exfalso
      apply h
      simp only [List.nil_append]
      exact (isPref_iff _ _).2 ⟨[], by simp⟩
    | cons a u' =>
      rw [List.cons_append, repAll_ne a (u' ++ yamlPat) (by simpa using h)]
      obtain ⟨v, hv⟩ := repAll_suf u'
      exact ⟨a :: v, by rw [hv]; rfl⟩
termination_by u.length
decreasing_by
  all_goals (simp_all [yamlPat, str]; try omega)

theorem repAll_single (stem : Str) (h : isSub yamlPat stem = false) :
    repAll (stem ++ yamlPat) = stem ++ encPat := by
  by_cases hp : isPref yamlPat (stem ++ yamlPat) = true
  · rcases pref_append_pat stem hp with rfl | ⟨w, rfl⟩
    · simp [repAll_pat, repAll]
    · exfalso
      have : isSub yamlPat (yamlPat ++ w) = true :=
        isSub_of_pref _ _ ((isPref_iff _ _).2 ⟨w, rfl⟩)
      rw [this] at h
      cases h
  · cases stem with
    | nil =>
      exfalso
      apply hp
      simp only [List.nil_append]
      exact (isPref_iff _ _).2 ⟨[], by simp⟩
    | cons a st =>
      rw [List.cons_append, repAll_ne a (st ++ yamlPat) (by simpa using hp)]
      have hst : isSub yamlPat st = false := by
        cases hx : isSub yamlPat st with
        | false => rfl
        | true =>
          rw [show isSub yamlPat (a :: st) =
            (isPref yamlPat (a :: st) || isSub yamlPat st) from rfl, hx, Bool.or_true] at h
          cases h
      rw [repAll_single st hst]
      rfl
termination_by stem.length

theorem repAll_ne_self (p : Str) (h : isSuf yamlPat p = true) : repAll p ≠ p := by
  obtain ⟨u, rfl⟩ := (isSuf_iff _ _).1 h
  have hsub : isSub yamlPat (u ++ yamlPat) = true :=
    (isSub_iff _ _).2 ⟨u, [], by simp⟩
  have hlen := repAll_len_gain _ hsub
  intro he
  rw [he] at hlen
  omega

theorem repAll_suffix_enc (p : Str) (h : isSuf yamlPat p = true) :
    isSuf encPat (repAll p) = true := by
  obtain ⟨u, rfl⟩ := (isSuf_iff _ _).1 h
  obtain ⟨v, hv⟩ := repAll_suf u
  rw [hv]
  exact (isSuf_iff _ _).2 ⟨v, rfl⟩

/-! Characterisation of a run: writes and counter as a function of the
selected paths. -/

/-- The write event `encrypt_file` performs for source path `q`. -/
def encWrite (enc : Oracle) (q : Str) : Str × Str := (repAll q, (enc q).out)

mutual
theorem encryptValues_char (enc : Oracle) (p : Str) (t : Entry) (s : RunState) :
    encryptValues enc p t s =
      ⟨s.count + (selPaths p t).length,
       s.writes ++ (selPaths p t).map (encWrite enc)⟩ := by
  cases t with
  | file c =>
    rw [encryptValues_file, selPaths_file]
    by_cases h : selects p = true
    · simp [h, encryptFile, encWrite]
    · simp only [Bool.not_eq_true] at h
      simp [h]
  | dir cs =>
    rw [encryptValues_dir, selPaths_dir]
    exact encryptChildren_char enc p cs s
theorem encryptChildren_char (enc : Oracle) (p : Str) (cs : EList) (s : RunState) :
    encryptChildren enc p cs s =
      ⟨s.count + (selChildren p cs).length,
       s.writes ++ (selChildren p cs).map (encWrite enc)⟩ := by
  cases cs with
  | nil => rw [encryptChildren_nil, selChildren_nil]; simp
  | cons n e rest =>
    rw [encryptChildren_cons, selChildren_cons,
      encryptValues_char enc (p ++ '/' :: n) e s,
      encryptChildren_char enc p rest ⟨s.count + (selPaths (p ++ '/' :: n) e).length,
        s.writes ++ (selPaths (p ++ '/' :: n) e).map (encWrite enc)⟩]
    simp [List.length_append, List.map_append, List.append_assoc, Nat.add_assoc]
end

mutual
theorem selPaths_eq_filter (p : Str) (t : Entry) :
    selPaths p t = (filePaths p t).filter (fun q => selects q) := by
  cases t with
  | file c =>
    rw [selPaths_file, filePaths_file]
    by_cases h : selects p = true
    · simp [List.filter, h]
    · simp only [Bool.not_eq_true] at h
      simp [List.filter, h]
  | dir cs =>
    rw [selPaths_dir, filePaths_dir]
    exact selChildren_eq_filter p cs
theorem selChildren_eq_filter (p : Str) (cs : EList) :
    selChildren p cs = (fileChildren p cs).filter (fun q => selects q) := by
  cases cs with
  | nil => rw [selChildren_nil, fileChildren_nil]; rfl
  | cons n e rest =>
    rw [selChildren_cons, fileChildren_cons, List.filter_append,
      selPaths_eq_filter (p ++ '/' :: n) e, selChildren_eq_filter p rest]
end

/-! Write semantics: overwrite always succeeds, and a write is invisible at
every other path. -/

theorem lookupC_setFileC_self : ∀ (cs : EList) (n c : Str),
    lookupC (setFileC cs n c) n = some (.file c)
  | .nil, n, c => by simp [setFileC, lookupC]
  | .cons m e rest, n, c => by
    by_cases h : m = n
    · subst h
      simp [setFileC, lookupC]
    · simp [setFileC, lookupC, h, lookupC_setFileC_self rest n c]

theorem lookupC_setFileC_ne : ∀ (cs : EList) (n c k : Str), k ≠ n →
    lookupC (setFileC cs n c) k = lookupC cs k
  | .nil, n, c, k => fun h => by
    simp [setFileC, lookupC, Ne.symm h]
  | .cons m e rest, n, c, k => fun h => by
    by_cases hm : m = n
    · subst hm
      simp [setFileC, lookupC, Ne.symm h]
    · by_cases hk : m = k
      · subst hk
        simp [setFileC, lookupC, hm]
      · simp [setFileC, lookupC, hm, hk, lookupC_setFileC_ne rest n c k h]

theorem lookupC_replaceC_self : ∀ (cs : EList) (n : Str) (e0 e' : Entry),
    lookupC cs n = some e0 → lookupC (replaceC cs n e') n = some e'
  | .nil, n, e0, e' => fun h => by simp [lookupC] at h
  | .cons m e rest, n, e0, e' => fun h => by
    by_cases hm : m = n
    · subst hm
      simp [replaceC, lookupC]
    · simp only [lookupC, if_neg hm] at h
      simp [replaceC, lookupC, hm, lookupC_replaceC_self rest n e0 e' h]

theorem lookupC_replaceC_ne : ∀ (cs : EList) (n : Str) (e' : Entry) (k : Str), k ≠ n →
    lookupC (replaceC cs n e') k = lookupC cs k
  | .nil, n, e', k => fun h => by simp [replaceC]
  | .cons m e rest, n, e', k => fun h => by
    by_cases hm : m = n
    · subst hm
      simp [replaceC, lookupC, Ne.symm h]
    · by_cases hk : m = k
      · subst hk
        simp [replaceC, lookupC, hm]
      · simp [replaceC, lookupC, hm, hk, lookupC_replaceC_ne rest n e' k h]

theorem writePath_over (t : Entry) (n : Str) (rest : List Str) (c0 c : Str)
    (h : lookupPath t (n :: rest) = some c0) :
    ∃ t', writePath t (n :: rest) c = some t' ∧ lookupPath t' (n :: rest) = some c := by
  induction rest generalizing t n with
  | nil =>
    cases t with
    | file cc => simp [lookupPath] at h
    | dir cs =>
      simp only [lookupPath] at h
      cases he : lookupC cs n with
      | none => rw [he] at h; cases h
      | some e =>
        rw [he] at h
        cases e with
        | dir cs' => simp [lookupPath] at h
        | file cc =>
          refine ⟨.dir (setFileC cs n c), ?_, ?_⟩
          · simp [writePath, he]
          · simp [lookupPath, lookupC_setFileC_self]
  | cons m rest' ih =>
    cases t with
    | file cc => simp [lookupPath] at h
    | dir cs =>
      simp only [lookupPath] at h
      cases he : lookupC cs n with
      | none => rw [he] at h; cases h
      | some e =>
        rw [he] at h
        obtain ⟨e', hw, hl⟩ := ih e m h
        refine ⟨.dir (replaceC cs n e'), ?_, ?_⟩
        · simp [writePath, he, hw]
        · simp [lookupPath, lookupC_replaceC_self cs n e e' he, hl]

theorem writePath_frame (t t' : Entry) (comps q : List Str) (c : Str)
    (hw : writePath t comps c = some t') (hne : q ≠ comps) :
    lookupPath t' q = lookupPath t q := by
  induction comps generalizing t t' q with
  | nil => simp [writePath] at hw
  | cons n rest ih =>
    cases t with
    | file cc => simp [writePath] at hw
    | dir cs =>
      cases rest with
      | nil =>
        have ht' : t' = .dir (setFileC cs n c) ∧ ∀ e0, lookupC cs n = some e0 →
            ∀ cs', e0 ≠ .dir cs' := by
          simp only [writePath] at hw
          cases he : lookupC cs n with
          | none =>
            rw [he] at hw
            simp only [Option.some.injEq] at hw
            exact ⟨hw.symm, by intro e0 h0; cases h0⟩
          | some e =>
            rw [he] at hw
            cases e with
            | dir cs' => cases hw
            | file cc =>
              simp only [Option.some.injEq] at hw
              refine ⟨hw.symm, ?_⟩
              rintro e0 h0 cs' rfl
              cases h0
        obtain ⟨rfl, hnd⟩ := ht'
        cases q with
        | nil => simp [lookupPath]
        | cons k qr =>
          by_cases hk : k = n
          · subst hk
            have hqr : qr ≠ [] := by
              intro hq; exact hne (by rw [hq])
            cases qr with
            | nil => exact absurd rfl hqr
            | cons q1 qrest =>
              simp only [lookupPath, lookupC_setFileC_self]
              cases he : lookupC cs k with
              | none => simp [lookupPath]
              | some e =>
                cases e with
                | file cc => simp [lookupPath]
                | dir cs' => exact absurd rfl (hnd _ he _)
          · simp [lookupPath, lookupC_setFileC_ne cs n c k hk]
      | cons m rest' =>
        cases he : lookupC cs n with
        | none =>
          simp only [writePath, he] at hw
          cases hw
        | some e =>
          cases hwe : writePath e (m :: rest') c with
          | none =>
            simp only [writePath, he, hwe] at hw
            cases hw
          | some e' =>
            simp only [writePath, he, hwe, Option.some.injEq] at hw
            subst hw
            cases q with
            | nil => simp [lookupPath]
            | cons k qr =>
              by_cases hk : k = n
              · subst hk
                have hqr : qr ≠ m :: rest' := by
                  intro hq; exact hne (by rw [hq])
                simp only [lookupPath, lookupC_replaceC_self cs k e e' he, he]
                exact ih e e' qr hwe hqr
              · simp [lookupPath, lookupC_replaceC_ne cs n e' k hk]

/-! Paths as strings versus paths as component lists. -/

theorem splitPath_ne_nil (s : Str) : splitPath s ≠ [] := by
  induction s with
  | nil => simp [splitPath]
  | cons a t ih =>
    by_cases ha : a = '/'
    · simp [splitPath, ha]
    · simp only [splitPath, if_neg ha]
      cases hsp : splitPath t with
      | nil => simp
      | cons h r => simp

theorem joinPath_splitPath (s : Str) : joinPath (splitPath s) = s := by
  induction s with
  | nil => rfl
  | cons a t ih =>
    by_cases ha : a = '/'
    · subst ha
      simp only [splitPath, if_pos rfl]
      cases hsp : splitPath t with
      | nil => exact absurd hsp (splitPath_ne_nil t)
      | cons h r =>
        rw [hsp] at ih
        show joinPath ([] :: h :: r) = '/' :: t
        rw [show joinPath ([] :: h :: r) = [] ++ '/' :: joinPath (h :: r) from rfl]
        rw [ih]
        rfl
    · simp only [splitPath, if_neg ha]
      cases hsp : splitPath t with
      | nil => exact absurd hsp (splitPath_ne_nil t)
      | cons h r =>
        rw [hsp] at ih
        cases r with
        | nil =>
          show a :: h = a :: t
          rw [show joinPath [h] = h from rfl] at ih
          rw [ih]
        | cons y r' =>
          show (a :: h) ++ '/' :: joinPath (y :: r') = a :: t
          rw [show joinPath (h :: y :: r') = h ++ '/' :: joinPath (y :: r') from rfl] at ih
          rw [List.cons_append, ih]

theorem splitPath_inj (a b : Str) (h : splitPath a = splitPath b) : a = b := by
  have ha := joinPath_splitPath a
  have hb := joinPath_splitPath b
  rw [← ha, ← hb, h]


/-! Claim C1. -/

/-- A tree with a directory whose NAME contains `values.` (children of root `r`). -/
def c1Tree : EList :=
  .cons (str "values.d") (.dir (.cons (str "chart.yaml") (.file (str "x")) .nil))
    (.cons (str "values.yaml.yaml") (.file (str "y")) .nil)

/-- Claim C1 is false as stated: on `c1Tree` the program creates
`r/values.d/chart.enc.yaml` (its source matches only because the DIRECTORY name
contains `values.`), which is not in the spec's claimed set, and it does not
create `r/values.yaml.enc.yaml`, which is in the claimed set (the destination
is derived from every `.yaml` occurrence, not the final one). -/
theorem c1_counterexample :
    (str "r/values.d/chart.enc.yaml") ∈
        (mainRun constEnc (some (str "age1key")) none (str "r") (some c1Tree)).writes.map
          Prod.fst ∧
      (str "r/values.d/chart.enc.yaml") ∉ specList (str "r") c1Tree ∧
      (str "r/values.yaml.enc.yaml") ∈ specList (str "r") c1Tree ∧
      (str "r/values.yaml.enc.yaml") ∉
        (mainRun constEnc (some (str "age1key")) none (str "r") (some c1Tree)).writes.map
          Prod.fst := by
  decide

/-- Claim C1, amended: for every tree, the list of files a run creates is
exactly the image under `replace('.yaml', '.enc.yaml')` (applied to the full
path, every occurrence) of the regular-file paths passing the line-69 test on
the full path; no other files are created. -/
theorem c1_run_creates_exactly_selected (enc : Oracle) (root : Str) (t : Entry) :
    runDests enc root t = (selPaths root t).map repAll := by
  unfold runDests
  rw [encryptValues_char]
  simp only [List.nil_append, List.map_map]
  rfl

/-! Claim C2. -/

/-- Children of root `r`: a directory named `values.d` holding `chart.yaml`. -/
def c2Tree : EList :=
  .cons (str "values.d") (.dir (.cons (str "chart.yaml") (.file (str "x")) .nil)) .nil

/-- Claim C2 is false as stated: the walk selects `r/values.d/chart.yaml`
although its NAME `chart.yaml` does not contain `values.` — the `values.` test
is applied to the whole path, and here it is satisfied by a directory name. -/
theorem c2_counterexample :
    selPaths (str "r") (.dir c2Tree) = [str "r/values.d/chart.yaml"] ∧
      baseName (str "r/values.d/chart.yaml") = str "chart.yaml" ∧
      nameMatch (str "chart.yaml") = false := by
  decide

/-- Claim C2, amended: a path is selected iff it is a regular-file path and the
FULL PATH string ends with `.yaml`, contains `values.`, and does not end with
`values.enc.yaml`; in particular a file named `values.enc.yaml` is never
selected, since its path ends with `values.enc.yaml`. -/
theorem c2_selection_is_path_filter :
    (∀ (root : Str) (t : Entry),
        selPaths root t = (filePaths root t).filter (fun q => selects q)) ∧
      ∀ d : Str, selects (d ++ str "/values.enc.yaml") = false := by
  constructor
  · exact selPaths_eq_filter
  · intro d
    have hsplit : d ++ str "/values.enc.yaml" = (d ++ ['/']) ++ vencPat := by
      rw [List.append_assoc]
      rfl
    have hsuf : isSuf vencPat (d ++ str "/values.enc.yaml") = true :=
      (isSuf_iff _ _).2 ⟨d ++ ['/'], hsplit⟩
    simp [selects, hsuf]

/-! Claim C3. -/

/-- Claim C3 is false as stated: Python `str.replace` with no count replaces
EVERY occurrence in the full path, not the first one.  On source
`r/values.yaml.yaml` the program writes `r/values.enc.yaml.enc.yaml`, while
first-occurrence replacement would give `r/values.enc.yaml.yaml`. -/
theorem c3_counterexample :
    (encryptFile constEnc (str "r/values.yaml.yaml") ⟨0, []⟩).writes =
        [(str "r/values.enc.yaml.enc.yaml", str "E")] ∧
      replaceFirst (str "r/values.yaml.yaml") = str "r/values.enc.yaml.yaml" ∧
      repAll (str "r/values.yaml.yaml") ≠ replaceFirst (str "r/values.yaml.yaml") := by
  decide

/-- Claim C3, amended: the destination is the source path with EVERY occurrence
of `.yaml` replaced by `.enc.yaml`; when `.yaml` occurs only as the final
suffix (no other occurrence anywhere in the path), this is the claimed sibling
`name.yaml ↦ name.enc.yaml`. -/
theorem c3_dest_sibling (enc : Oracle) (s : RunState) (stem : Str)
    (h : isSub yamlPat stem = false) :
    (encryptFile enc (stem ++ yamlPat) s).writes =
      s.writes ++ [(stem ++ encPat, (enc (stem ++ yamlPat)).out)] := by
  simp [encryptFile, repAll_single stem h]

theorem c3_witness :
    isSub yamlPat (str "r/values") = false ∧
      (encryptFile constEnc (str "r/values" ++ yamlPat) ⟨0, []⟩).writes =
        [] ++ [(str "r/values" ++ encPat, (constEnc (str "r/values" ++ yamlPat)).out)] :=
  ⟨by decide, c3_dest_sibling constEnc ⟨0, []⟩ (str "r/values") (by decide)⟩

/-! Claim C5. -/

/-- Claim C5 is false as stated: `encrypt_values` returns the shared instance
counter `self.encrypted_files`, not a subtree count.  A recursive call on an
empty directory made after one file has already been encrypted returns 1,
while its subtree contains no matching file. -/
theorem c5_counterexample :
    (encryptValues constEnc (str "r/b") (.dir .nil)
        ⟨1, [(str "r/values.a.enc.yaml", str "E")]⟩).count = 1 ∧
      (selPaths (str "r/b") (.dir .nil)).length = 0 := by
  decide

/-- Claim C5, amended: a call to the walk returns the cumulative counter — its
incoming value plus the number of selected files in the subtree — so the
top-level call on a fresh encryptor (counter 0) returns exactly the number of
destination files written in that run, which is the reported count. -/
theorem c5_count (enc : Oracle) (p : Str) (t : Entry) (s : RunState) :
    (encryptValues enc p t s).count = s.count + (selPaths p t).length ∧
      (encryptValues enc p t ⟨0, []⟩).count =
        (encryptValues enc p t ⟨0, []⟩).writes.length := by
  constructor
  · rw [encryptValues_char]
  · rw [encryptValues_char]
    simp

/-! Claim C4. -/

/-- Children of root `r`: a single `values.dev.yaml`. -/
def c4Tree : EList := .cons (str "values.dev.yaml") (.file (str "x")) .nil

/-- `c4Tree` after the first run has materialised its write. -/
def c4Tree' : EList :=
  .cons (str "values.dev.yaml") (.file (str "x"))
    (.cons (str "values.dev.enc.yaml") (.file (str "E")) .nil)

/-- Claim C4 is false as stated: after a run on `c4Tree` creates
`values.dev.enc.yaml`, a second run also selects that output (it ends in
`.yaml`, contains `values.`, and does not end in the literal
`values.enc.yaml`) and creates the new file `values.dev.enc.enc.yaml`, so two
runs do not produce the same set of destination files as one run. -/
theorem c4_counterexample :
    applyWrites (str "r") (.dir c4Tree)
        (encryptValues constEnc (str "r") (.dir c4Tree) ⟨0, []⟩).writes =
        some (.dir c4Tree') ∧
      runDests constEnc (str "r") (.dir c4Tree) = [str "r/values.dev.enc.yaml"] ∧
      (str "r/values.dev.enc.enc.yaml") ∈ runDests constEnc (str "r") (.dir c4Tree') ∧
      (str "r/values.dev.enc.enc.yaml") ∉ runDests constEnc (str "r") (.dir c4Tree) := by
  refine ⟨rfl, rfl, by decide, by decide⟩

/-- Children of root `r`: a single file named exactly `values.yaml` (Scenario A). -/
def cATree : EList := .cons (str "values.yaml") (.file (str "x")) .nil

/-- `cATree` after one run. -/
def cATree' : EList :=
  .cons (str "values.yaml") (.file (str "x"))
    (.cons (str "values.enc.yaml") (.file (str "E")) .nil)

/-- Claim C4, amended: re-running never fails with "file exists" — writing to a
path holding an existing regular file always succeeds and overwrites it — and
for sources named exactly `values.yaml` (whose output `values.enc.yaml` is
excluded by the filter) a second run produces the same destination files as the
first; in general, however, a second run can create additional
`*.enc.enc.yaml` files. -/
theorem c4_overwrite_and_scenario_a (t : Entry) (n : Str) (rest : List Str) (c0 c : Str)
    (h : lookupPath t (n :: rest) = some c0) :
    (∃ t', writePath t (n :: rest) c = some t' ∧ lookupPath t' (n :: rest) = some c) ∧
      applyWrites (str "r") (.dir cATree)
          (encryptValues constEnc (str "r") (.dir cATree) ⟨0, []⟩).writes =
        some (.dir cATree') ∧
      runDests constEnc (str "r") (.dir cATree') = runDests constEnc (str "r") (.dir cATree) := by
  exact ⟨writePath_over t n rest c0 c h, rfl, rfl⟩

theorem c4_witness :
    (∃ t', writePath (.dir cATree') [str "values.enc.yaml"] (str "F") = some t' ∧
        lookupPath t' [str "values.enc.yaml"] = some (str "F")) ∧
      applyWrites (str "r") (.dir cATree)
          (encryptValues constEnc (str "r") (.dir cATree) ⟨0, []⟩).writes =
        some (.dir cATree') ∧
      runDests constEnc (str "r") (.dir cATree') = runDests constEnc (str "r") (.dir cATree) :=
  c4_overwrite_and_scenario_a (.dir cATree') (str "values.enc.yaml") [] (str "E") (str "F")
    (by decide)

/-! Claim C6. -/

/-- Claim C6: with no resolvable key (both sources absent, or resolving to the
empty string, which Python treats as falsy), `main` prints the error and exits
with code 1 before looking at the filesystem: no writes, no completion
message, for every filesystem state. -/
theorem c6_missing_key_exits_one (enc : Oracle) (flag envKey : Option Str) (root : Str)
    (fs : Option EList)
    (h : resolveKey flag envKey = none ∨ resolveKey flag envKey = some []) :
    mainRun enc flag envKey root fs = ⟨1, [], none, true⟩ := by
  rcases h with h | h
  · simp [mainRun, h]
  · simp [mainRun, h]

theorem c6_witness :
    mainRun constEnc none none (str "r") (some c2Tree) = ⟨1, [], none, true⟩ :=
  c6_missing_key_exits_one constEnc none none (str "r") (some c2Tree) (Or.inl rfl)

/-! Claim C7. -/

/-- Claim C7: the run depends only on the tool's stdout — two oracles agreeing
on stdout give identical runs, so exit status and stderr are never consulted —
and on empty stdout `encrypt_file` still writes the (empty) destination file
and still counts it. -/
theorem c7_stdout_written_unconditionally (o1 o2 o : Oracle) (root : Str) (t : Entry)
    (s s' : RunState) (q : Str)
    (hout : ∀ r : Str, (o1 r).out = (o2 r).out) (hempty : (o q).out = []) :
    encryptValues o1 root t s = encryptValues o2 root t s ∧
      encryptFile o q s' = ⟨s'.count + 1, s'.writes ++ [(repAll q, [])]⟩ := by
  constructor
  · rw [encryptValues_char, encryptValues_char]
    have hfw : encWrite o1 = encWrite o2 := by
      funext r
      unfold encWrite
      rw [hout r]
    rw [hfw]
  · simp [encryptFile, hempty]

theorem c7_witness :
    encryptValues constEnc (str "r") (.dir c4Tree) ⟨0, []⟩ =
        encryptValues constEnc2 (str "r") (.dir c4Tree) ⟨0, []⟩ ∧
      encryptFile emptyEnc (str "r/values.yaml") ⟨0, []⟩ =
        ⟨0 + 1, [] ++ [(repAll (str "r/values.yaml"), [])]⟩ :=
  c7_stdout_written_unconditionally constEnc constEnc2 emptyEnc (str "r") (.dir c4Tree)
    ⟨0, []⟩ ⟨0, []⟩ (str "r/values.yaml") (fun _ => rfl) rfl

/-! Claim C8. -/

/-- Children of root `r`: matching sources next to existing files that the
claim says are "never touched". -/
def c8Tree : EList :=
  .cons (str "values.yaml") (.file (str "a"))
    (.cons (str "values.enc.yaml") (.file (str "b"))
      (.cons (str "values.d")
        (.dir (.cons (str "chart.yaml") (.file (str "x"))
          (.cons (str "chart.enc.yaml") (.file (str "y")) .nil))) .nil))

/-- `c8Tree` after one run. -/
def c8Tree' : EList :=
  .cons (str "values.yaml") (.file (str "a"))
    (.cons (str "values.enc.yaml") (.file (str "E"))
      (.cons (str "values.d")
        (.dir (.cons (str "chart.yaml") (.file (str "x"))
          (.cons (str "chart.enc.yaml") (.file (str "E"))
            (.cons (str "chart.enc.enc.yaml") (.file (str "E")) .nil)))) .nil))

/-- Claim C8 is false as stated: the existing files `values.enc.yaml` and
`values.d/chart.enc.yaml`, whose NAMES do not match the pattern, are both
chosen as write destinations, and the run overwrites the content of
`values.enc.yaml` (`"b"` becomes the tool output `"E"`). -/
theorem c8_counterexample :
    (str "r/values.enc.yaml") ∈ runDests constEnc (str "r") (.dir c8Tree) ∧
      nameMatch (str "values.enc.yaml") = false ∧
      (str "r/values.d/chart.enc.yaml") ∈ runDests constEnc (str "r") (.dir c8Tree) ∧
      nameMatch (str "chart.enc.yaml") = false ∧
      applyWrites (str "r") (.dir c8Tree)
          (encryptValues constEnc (str "r") (.dir c8Tree) ⟨0, []⟩).writes =
        some (.dir c8Tree') ∧
      lookupPath (.dir c8Tree) [str "values.enc.yaml"] = some (str "b") ∧
      lookupPath (.dir c8Tree') [str "values.enc.yaml"] = some (str "E") := by
  refine ⟨by decide, by decide, by decide, by decide, rfl, rfl, rfl⟩

/-- Claim C8, amended: every write destination of a run ends in `.enc.yaml`,
so files whose full path does not end in `.enc.yaml` — such as `chart.yaml` or
`README.md` — are never chosen as a write destination; but an existing file
whose path looks like a destination (for example `values.enc.yaml`) can be
overwritten. -/
theorem c8_dest_ends_enc_yaml (enc : Oracle) (root : Str) (t : Entry) (d c : Str)
    (h : (d, c) ∈ (encryptValues enc root t ⟨0, []⟩).writes) :
    isSuf encPat d = true := by
  rw [encryptValues_char] at h
  simp only [List.nil_append] at h
  obtain ⟨q, hq, he⟩ := List.mem_map.1 h
  have hsel : selects q = true := by
    rw [selPaths_eq_filter] at hq
    exact (List.mem_filter.1 hq).2
  have hyaml : isSuf yamlPat q = true := by
    simp only [selects, Bool.and_eq_true] at hsel
    exact hsel.1.1
  have hd : repAll q = d := congrArg Prod.fst he
  rw [← hd]
  exact repAll_suffix_enc q hyaml

theorem c8_witness :
    isSuf encPat (str "r/values.enc.yaml") = true :=
  c8_dest_ends_enc_yaml constEnc (str "r") (.dir cATree) (str "r/values.enc.yaml") (str "E")
    (by decide)

/-! Claim C9. -/

/-- Claim C9: with a resolvable (non-empty) key but a root that is not a
directory, `main` does nothing: exit code 0, no writes, no completion message,
no error message. -/
theorem c9_nondir_root_noop (enc : Oracle) (flag envKey : Option Str) (root : Str) (k : Str)
    (hk : resolveKey flag envKey = some k) (hne : k.isEmpty = false) :
    mainRun enc flag envKey root none = ⟨0, [], none, false⟩ := by
  simp [mainRun, hk, hne]

theorem c9_witness :
    mainRun constEnc (some (str "age1abc")) none (str "missing") none =
      ⟨0, [], none, false⟩ :=
  c9_nondir_root_noop constEnc (some (str "age1abc")) none (str "missing") (str "age1abc")
    rfl rfl

/-! Claim C10. -/

/-- Claim C10: for any selected source (its path ends in `.yaml`) the derived
destination differs from the source path, and performing the destination write
leaves the file at the source path unchanged. -/
theorem c10_dest_ne_source (p : Str) (h : isSuf yamlPat p = true) :
    repAll p ≠ p ∧
      ∀ (t t' : Entry) (c : Str),
        writePath t (splitPath (repAll p)) c = some t' →
          lookupPath t' (splitPath p) = lookupPath t (splitPath p) := by
  refine ⟨repAll_ne_self p h, ?_⟩
  intro t t' c hw
  apply writePath_frame t t' _ _ c hw
  intro hq
  exact repAll_ne_self p h (splitPath_inj p (repAll p) hq).symm

/-- A root directory seen as an entry, for exercising claim C10's write. -/
def c10Root : Entry :=
  .dir (.cons (str "r") (.dir (.cons (str "values.yaml") (.file (str "x")) .nil)) .nil)

/-- `c10Root` after writing the destination. -/
def c10Root' : Entry :=
  .dir (.cons (str "r")
    (.dir (.cons (str "values.yaml") (.file (str "x"))
      (.cons (str "values.enc.yaml") (.file (str "E")) .nil))) .nil)

theorem c10_witness :
    repAll (str "r/values.yaml") ≠ str "r/values.yaml" ∧
      lookupPath c10Root' (splitPath (str "r/values.yaml")) =
        lookupPath c10Root (splitPath (str "r/values.yaml")) :=
  ⟨(c10_dest_ne_source (str "r/values.yaml") (by decide)).1,
   (c10_dest_ne_source (str "r/values.yaml") (by decide)).2 c10Root c10Root' (str "E")
     (by rfl)⟩
